import Mathlib

/-!
Shallow embedding of the element-stiffness module of the `fea-class`
repository (`src/element_stiffness.py`, functions `truss_2d_element` and
`beam_2d_element`).  The repository ships only the compiled bytecode of this
module, whose recoverable docstrings and symbol tables name the functions,
their parameters (`coord1`, `coord2`, `EA`, `EI`), the intermediate values
(`x1, y1, x2, y2, L, c, s, theta, K, K_local, T_gl_to_loc`) and its numpy
dependencies (`linalg.norm`, `arctan2`, `array`); the formulas themselves are
modelled from the specification.  Real arithmetic stands in for IEEE
floating point.
-/

open Matrix Real

noncomputable section

/-- Modelled from the spec: the two-argument arctangent `np.arctan2(y, x)`
with range `(-π, π]` and `arctan2 0 0 = 0`, realised as the complex argument
of `x + y i`. -/
def arctan2 (y x : ℝ) : ℝ := Complex.arg ⟨x, y⟩

/-- Modelled from the spec: the element length `L = ‖coord2 - coord1‖`
(Euclidean norm of the coordinate difference vector, `np.linalg.norm`). -/
def elemLen (coord1 coord2 : ℝ × ℝ) : ℝ :=
  Real.sqrt ((coord2.1 - coord1.1) ^ 2 + (coord2.2 - coord1.2) ^ 2)

/-- Modelled from the spec: direction cosine `c = (x2 - x1) / L`. -/
def dirCos (coord1 coord2 : ℝ × ℝ) : ℝ := (coord2.1 - coord1.1) / elemLen coord1 coord2

/-- Modelled from the spec: direction sine `s = (y2 - y1) / L`. -/
def dirSin (coord1 coord2 : ℝ × ℝ) : ℝ := (coord2.2 - coord1.2) / elemLen coord1 coord2

/-- Modelled from the spec: `truss_2d_element(coord1, coord2, EA)` returns the
4x4 global stiffness matrix of a 2D truss bar together with the orientation
angle `theta = arctan2(s, c)` computed from the normalised direction cosines.
The matrix is the classic truss pattern `EA / L` times the outer-product
pattern of `[c, s, -c, -s]`, written out entrywise as in the MATLAB source it
was translated from. -/
def truss_2d_element (coord1 coord2 : ℝ × ℝ) (EA : ℝ) :
    Matrix (Fin 4) (Fin 4) ℝ × ℝ :=
  let L := elemLen coord1 coord2
  let c := dirCos coord1 coord2
  let s := dirSin coord1 coord2
  let theta := arctan2 s c
  let K := (EA / L) •
    !![c * c, c * s, -(c * c), -(c * s);
       c * s, s * s, -(c * s), -(s * s);
       -(c * c), -(c * s), c * c, c * s;
       -(c * s), -(s * s), c * s, s * s]
  (K, theta)

/-- Modelled from the spec: the local 6x6 beam stiffness matrix `K_local`
of the source, combining the axial terms `EA/L` on DOFs 0 and 3 with the
standard Euler-Bernoulli Hermite bending terms on DOFs 1, 2, 4, 5, written
out entrywise. -/
def K_local (EA EI L : ℝ) : Matrix (Fin 6) (Fin 6) ℝ :=
  !![EA / L, 0, 0, -(EA / L), 0, 0;
     0, 12 * EI / L ^ 3, 6 * EI / L ^ 2, 0, -(12 * EI / L ^ 3), 6 * EI / L ^ 2;
     0, 6 * EI / L ^ 2, 4 * EI / L, 0, -(6 * EI / L ^ 2), 2 * EI / L;
     -(EA / L), 0, 0, EA / L, 0, 0;
     0, -(12 * EI / L ^ 3), -(6 * EI / L ^ 2), 0, 12 * EI / L ^ 3, -(6 * EI / L ^ 2);
     0, 6 * EI / L ^ 2, 2 * EI / L, 0, -(6 * EI / L ^ 2), 4 * EI / L]

/-- Modelled from the spec: the global-to-local transformation matrix
`T_gl_to_loc` of the source, block diagonal with one 3x3
rotation-plus-identity block per node, written out entrywise. -/
def T_gl_to_loc (c s : ℝ) : Matrix (Fin 6) (Fin 6) ℝ :=
  !![c, s, 0, 0, 0, 0;
     -s, c, 0, 0, 0, 0;
     0, 0, 1, 0, 0, 0;
     0, 0, 0, c, s, 0;
     0, 0, 0, -s, c, 0;
     0, 0, 0, 0, 0, 1]

/-- Modelled from the spec: `beam_2d_element(coord1, coord2, EA, EI)` returns
the 6x6 global stiffness matrix of a 2D Euler-Bernoulli beam together with
the orientation angle: `K_global = Tᵀ * K_local * T` for the
global-to-local transformation `T`. -/
def beam_2d_element (coord1 coord2 : ℝ × ℝ) (EA EI : ℝ) :
    Matrix (Fin 6) (Fin 6) ℝ × ℝ :=
  let L := elemLen coord1 coord2
  let c := dirCos coord1 coord2
  let s := dirSin coord1 coord2
  let theta := arctan2 s c
  let T := T_gl_to_loc c s
  (Tᵀ * K_local EA EI L * T, theta)

/-- The direction-cosine vector `d = [c, s, -c, -s]` of a truss element, used
by the spec to describe the stiffness matrix as the outer product
`(EA/L) * d dᵀ`. -/
def trussDir (coord1 coord2 : ℝ × ℝ) : Fin 4 → ℝ :=
  ![dirCos coord1 coord2, dirSin coord1 coord2,
    -dirCos coord1 coord2, -dirSin coord1 coord2]

/-- Known value: the unit horizontal truss element with `EA = 1`. -/
theorem truss_known_horizontal :
    truss_2d_element (0, 0) (1, 0) 1 =
      (!![1, 0, -1, 0; 0, 0, 0, 0; -1, 0, 1, 0; 0, 0, 0, 0], 0) := by
  have hL : elemLen (0, 0) (1, 0) = 1 := by
    simp [elemLen]
  have hc : dirCos (0, 0) (1, 0) = 1 := by
    unfold dirCos
    rw [hL]
    norm_num
  have hs : dirSin (0, 0) (1, 0) = 0 := by
    unfold dirSin
    rw [hL]
    norm_num
  have harg : arctan2 0 1 = 0 := by
    have h1 : ((⟨1, 0⟩ : ℂ)) = 1 := by
      refine Complex.ext ?_ ?_ <;> simp
    simp [arctan2, h1]
  simp only [truss_2d_element, hL, hc, hs, harg]
  refine Prod.ext ?_ rfl
  ext i j
  fin_cases i <;> fin_cases j <;> norm_num

/-- Known value: the unit vertical truss element with `EA = 1`. -/
theorem truss_known_vertical :
    truss_2d_element (0, 0) (0, 1) 1 =
      (!![0, 0, 0, 0; 0, 1, 0, -1; 0, 0, 0, 0; 0, -1, 0, 1], Real.pi / 2) := by
  have hL : elemLen (0, 0) (0, 1) = 1 := by
    simp [elemLen]
  have hc : dirCos (0, 0) (0, 1) = 0 := by
    unfold dirCos
    rw [hL]
    norm_num
  have hs : dirSin (0, 0) (0, 1) = 1 := by
    unfold dirSin
    rw [hL]
    norm_num
  have harg : arctan2 1 0 = Real.pi / 2 := by
    have h1 : ((⟨0, 1⟩ : ℂ)) = Complex.I := by
      refine Complex.ext ?_ ?_ <;> simp
    simp [arctan2, h1, Complex.arg_I]
  simp only [truss_2d_element, hL, hc, hs, harg]
  refine Prod.ext ?_ rfl
  ext i j
  fin_cases i <;> fin_cases j <;> norm_num

/-- The length of an element is nonnegative. -/
lemma elemLen_nonneg (coord1 coord2 : ℝ × ℝ) : 0 ≤ elemLen coord1 coord2 :=
  Real.sqrt_nonneg _

/-- The length of an element with distinct endpoints is positive. -/
lemma elemLen_pos {coord1 coord2 : ℝ × ℝ} (h : coord1 ≠ coord2) :
    0 < elemLen coord1 coord2 := by
  have hd : coord2.1 - coord1.1 ≠ 0 ∨ coord2.2 - coord1.2 ≠ 0 := by
    by_contra hc
    push_neg at hc
    exact h (Prod.ext (by linarith [hc.1]) (by linarith [hc.2]))
  refine Real.sqrt_pos.mpr ?_
  rcases hd with h1 | h1
  · have : 0 < (coord2.1 - coord1.1) ^ 2 :=
      lt_of_le_of_ne (sq_nonneg _) (Ne.symm (pow_ne_zero 2 h1))
    nlinarith [sq_nonneg (coord2.2 - coord1.2)]
  · have : 0 < (coord2.2 - coord1.2) ^ 2 :=
      lt_of_le_of_ne (sq_nonneg _) (Ne.symm (pow_ne_zero 2 h1))
    nlinarith [sq_nonneg (coord2.1 - coord1.1)]

/-- The squared length recovers the sum of squared coordinate differences. -/
lemma elemLen_sq (coord1 coord2 : ℝ × ℝ) :
    elemLen coord1 coord2 ^ 2 = (coord2.1 - coord1.1) ^ 2 + (coord2.2 - coord1.2) ^ 2 :=
  Real.sq_sqrt (by positivity)

/-- The direction cosines of an element with distinct endpoints are normalised. -/
lemma dirCos_sq_add_dirSin_sq {coord1 coord2 : ℝ × ℝ} (h : coord1 ≠ coord2) :
    dirCos coord1 coord2 ^ 2 + dirSin coord1 coord2 ^ 2 = 1 := by
  have hL : elemLen coord1 coord2 ≠ 0 := ne_of_gt (elemLen_pos h)
  have hsq := elemLen_sq coord1 coord2
  unfold dirCos dirSin
  field_simp
  linarith [hsq]

/-- Direction cosine times length recovers the x difference. -/
lemma dirCos_mul_len {coord1 coord2 : ℝ × ℝ} (h : coord1 ≠ coord2) :
    dirCos coord1 coord2 * elemLen coord1 coord2 = coord2.1 - coord1.1 := by
  have hL : elemLen coord1 coord2 ≠ 0 := ne_of_gt (elemLen_pos h)
  unfold dirCos
  field_simp

/-- Direction sine times length recovers the y difference. -/
lemma dirSin_mul_len {coord1 coord2 : ℝ × ℝ} (h : coord1 ≠ coord2) :
    dirSin coord1 coord2 * elemLen coord1 coord2 = coord2.2 - coord1.2 := by
  have hL : elemLen coord1 coord2 ≠ 0 := ne_of_gt (elemLen_pos h)
  unfold dirSin
  field_simp

/-- The truss stiffness matrix is the scaled outer product of the
direction-cosine vector with itself. -/
lemma truss_fst_eq_outer (coord1 coord2 : ℝ × ℝ) (EA : ℝ) :
    (truss_2d_element coord1 coord2 EA).1 =
      (EA / elemLen coord1 coord2) •
        Matrix.vecMulVec (trussDir coord1 coord2) (trussDir coord1 coord2) := by
  ext i j
  fin_cases i <;> fin_cases j <;>
    simp [truss_2d_element, trussDir, Matrix.vecMulVec] <;>
      first | ring1 | exact Or.inl (by ring)

/-- The angle returned by the truss element is the arctangent of the
normalised direction cosines. -/
lemma truss_snd_eq (coord1 coord2 : ℝ × ℝ) (EA : ℝ) :
    (truss_2d_element coord1 coord2 EA).2 =
      arctan2 (dirSin coord1 coord2) (dirCos coord1 coord2) := rfl

/-- Positive rescaling of both arguments does not change the two-argument
arctangent. -/
lemma arctan2_pos_scale (y x r : ℝ) (hr : 0 < r) :
    arctan2 (r * y) (r * x) = arctan2 y x := by
  have h1 : ((⟨r * x, r * y⟩ : ℂ)) = (r : ℂ) * ⟨x, y⟩ := by
    refine Complex.ext ?_ ?_ <;> simp
  unfold arctan2
  rw [h1]
  exact Complex.arg_real_mul _ hr

/-- C1: for every pair of distinct endpoint coordinates and every `EA`,
`truss_2d_element` returns `K = (EA/L) * d dᵀ` with `d = [c, s, -c, -s]` the
direction-cosine vector and `L` the element length, together with the
orientation angle `θ = atan2(Δy, Δx)`, which lies in `(-π, π]`. -/
theorem truss_matrix_is_outer_product_and_angle_in_range
    (coord1 coord2 : ℝ × ℝ) (EA : ℝ) (h : coord1 ≠ coord2) :
    (truss_2d_element coord1 coord2 EA).1 =
      (EA / elemLen coord1 coord2) •
        Matrix.vecMulVec (trussDir coord1 coord2) (trussDir coord1 coord2) ∧
    (truss_2d_element coord1 coord2 EA).2 =
      arctan2 (coord2.2 - coord1.2) (coord2.1 - coord1.1) ∧
    (truss_2d_element coord1 coord2 EA).2 ∈ Set.Ioc (-Real.pi) Real.pi := by
  refine ⟨truss_fst_eq_outer _ _ _, ?_, ?_⟩
  · rw [truss_snd_eq]
    have hL := elemLen_pos h
    have h1 : dirSin coord1 coord2 = (elemLen coord1 coord2)⁻¹ * (coord2.2 - coord1.2) := by
      unfold dirSin
      ring
    have h2 : dirCos coord1 coord2 = (elemLen coord1 coord2)⁻¹ * (coord2.1 - coord1.1) := by
      unfold dirCos
      ring
    rw [h1, h2]
    exact arctan2_pos_scale _ _ _ (inv_pos.mpr hL)
  · rw [truss_snd_eq]
    exact Complex.arg_mem_Ioc _

/-- Witness for C1 at the concrete unit horizontal element. -/
theorem truss_matrix_is_outer_product_and_angle_in_range_witness :
    (truss_2d_element (0, 0) (1, 0) 1).2 ∈ Set.Ioc (-Real.pi) Real.pi :=
  (truss_matrix_is_outer_product_and_angle_in_range (0, 0) (1, 0) 1
    (by norm_num [Prod.ext_iff])).2.2

/-- C3: the unit horizontal truss element with `EA = 1` gives the canonical
axial stiffness matrix and angle `0`; the unit vertical element gives the
y-axial matrix and angle `π/2`. -/
theorem truss_known_value_scenarios :
    truss_2d_element (0, 0) (1, 0) 1 =
      (!![1, 0, -1, 0; 0, 0, 0, 0; -1, 0, 1, 0; 0, 0, 0, 0], 0) ∧
    truss_2d_element (0, 0) (0, 1) 1 =
      (!![0, 0, 0, 0; 0, 1, 0, -1; 0, 0, 0, 0; 0, -1, 0, 1], Real.pi / 2) :=
  ⟨truss_known_horizontal, truss_known_vertical⟩

/-- The local beam stiffness matrix is symmetric entry by entry. -/
lemma K_local_symm (EA EI L : ℝ) : (K_local EA EI L)ᵀ = K_local EA EI L := by
  ext i j
  fin_cases i <;> fin_cases j <;> rfl

/-- The truss stiffness matrix equals its transpose, for all inputs. -/
lemma truss_fst_symm (coord1 coord2 : ℝ × ℝ) (EA : ℝ) :
    ((truss_2d_element coord1 coord2 EA).1)ᵀ = (truss_2d_element coord1 coord2 EA).1 := by
  ext i j
  fin_cases i <;> fin_cases j <;> simp [truss_2d_element, Matrix.transpose_apply]

/-- The first component of the beam element is the congruence transform of
the local stiffness matrix. -/
lemma beam_fst_eq (coord1 coord2 : ℝ × ℝ) (EA EI : ℝ) :
    (beam_2d_element coord1 coord2 EA EI).1 =
      (T_gl_to_loc (dirCos coord1 coord2) (dirSin coord1 coord2))ᵀ *
        K_local EA EI (elemLen coord1 coord2) *
        T_gl_to_loc (dirCos coord1 coord2) (dirSin coord1 coord2) := rfl

/-- The beam stiffness matrix equals its transpose, for all inputs. -/
lemma beam_fst_symm (coord1 coord2 : ℝ × ℝ) (EA EI : ℝ) :
    ((beam_2d_element coord1 coord2 EA EI).1)ᵀ = (beam_2d_element coord1 coord2 EA EI).1 := by
  rw [beam_fst_eq, Matrix.transpose_mul, Matrix.transpose_mul, Matrix.transpose_transpose,
    K_local_symm, Matrix.mul_assoc]

/-- C5: for every input with distinct endpoints, the stiffness matrices of
both `truss_2d_element` and `beam_2d_element` equal their own transposes. -/
theorem element_matrices_symmetric (coord1 coord2 : ℝ × ℝ) (EA EI : ℝ)
    (h : coord1 ≠ coord2) :
    (truss_2d_element coord1 coord2 EA).1 = ((truss_2d_element coord1 coord2 EA).1)ᵀ ∧
    (beam_2d_element coord1 coord2 EA EI).1 = ((beam_2d_element coord1 coord2 EA EI).1)ᵀ :=
  ⟨(truss_fst_symm _ _ _).symm, (beam_fst_symm _ _ _ _).symm⟩

/-- Witness for C5 at the concrete unit horizontal element. -/
theorem element_matrices_symmetric_witness :
    (truss_2d_element (0, 0) (1, 0) 1).1 = ((truss_2d_element (0, 0) (1, 0) 1).1)ᵀ :=
  (element_matrices_symmetric (0, 0) (1, 0) 1 1 (by norm_num [Prod.ext_iff])).1

/-- Translating both endpoints leaves the element length unchanged. -/
lemma elemLen_translate (t coord1 coord2 : ℝ × ℝ) :
    elemLen (coord1 + t) (coord2 + t) = elemLen coord1 coord2 := by
  unfold elemLen
  congr 1
  simp only [Prod.fst_add, Prod.snd_add]
  ring

/-- Translating both endpoints leaves the direction cosine unchanged. -/
lemma dirCos_translate (t coord1 coord2 : ℝ × ℝ) :
    dirCos (coord1 + t) (coord2 + t) = dirCos coord1 coord2 := by
  unfold dirCos
  rw [elemLen_translate]
  congr 1
  simp only [Prod.fst_add]
  ring

/-- Translating both endpoints leaves the direction sine unchanged. -/
lemma dirSin_translate (t coord1 coord2 : ℝ × ℝ) :
    dirSin (coord1 + t) (coord2 + t) = dirSin coord1 coord2 := by
  unfold dirSin
  rw [elemLen_translate]
  congr 1
  simp only [Prod.snd_add]
  ring

/-- C9: translating both endpoints by the same offset leaves both the truss
and the beam stiffness matrices unchanged: only the relative vector
`coord2 - coord1` matters. -/
theorem element_matrices_translation_invariant
    (t coord1 coord2 : ℝ × ℝ) (EA EI : ℝ) (h : coord1 ≠ coord2) :
    (truss_2d_element (coord1 + t) (coord2 + t) EA).1 =
      (truss_2d_element coord1 coord2 EA).1 ∧
    (beam_2d_element (coord1 + t) (coord2 + t) EA EI).1 =
      (beam_2d_element coord1 coord2 EA EI).1 := by
  constructor
  · simp only [truss_2d_element]
    rw [elemLen_translate, dirCos_translate, dirSin_translate]
  · rw [beam_fst_eq, beam_fst_eq, elemLen_translate, dirCos_translate, dirSin_translate]

/-- Witness for C9 at a concrete translated element. -/
theorem element_matrices_translation_invariant_witness :
    (truss_2d_element ((0, 0) + (2, 3)) ((1, 0) + (2, 3)) 1).1 =
      (truss_2d_element (0, 0) (1, 0) 1).1 :=
  (element_matrices_translation_invariant (2, 3) (0, 0) (1, 0) 1 1
    (by norm_num [Prod.ext_iff])).1

/-- A rigid-body nodal displacement of the two-node beam element: the same
translation `(tx, ty)` applied to both nodes plus a matching infinitesimal
rotation of amplitude `w` of both nodes about the common point `(px, py)`. -/
def rigidDisp (coord1 coord2 : ℝ × ℝ) (tx ty w px py : ℝ) : Fin 6 → ℝ :=
  ![tx - w * (coord1.2 - py), ty + w * (coord1.1 - px), w,
    tx - w * (coord2.2 - py), ty + w * (coord2.1 - px), w]

/-- Entry five of a six-entry vector literal. -/
lemma cons_val_five {α : Type _} (x : α) (u : Fin 5 → α) : vecCons x u 5 = u 4 := rfl

/-- The local beam stiffness matrix annihilates the local image of a
rigid-body displacement: the nodal values differ by the rotation amplitude
times the element vector. -/
lemma K_local_mulVec_rigid (EA EI L c s u1 v1 u2 v2 w : ℝ) (hL : L ≠ 0)
    (hcs : c ^ 2 + s ^ 2 = 1)
    (hu : u1 - u2 = w * (s * L)) (hv : v1 - v2 = -(w * (c * L))) :
    (K_local EA EI L).mulVec
      ![c * u1 + s * v1, -s * u1 + c * v1, w,
        c * u2 + s * v2, -s * u2 + c * v2, w] = 0 := by
  have ha : c * u1 + s * v1 = c * u2 + s * v2 := by
    linear_combination c * hu + s * hv
  have hy : -(s * u1) + c * v1 = -(s * u2) + c * v2 - w * L := by
    linear_combination (-s) * hu + c * hv + (-(w * L)) * hcs
  funext i
  fin_cases i <;>
    simp [K_local, Matrix.cons_mulVec, Matrix.cons_dotProduct, Matrix.dotProduct_empty,
      cons_val_five]
  · rw [ha]
    ring
  · rw [hy]
    field_simp
    ring
  · rw [hy]
    field_simp
    ring
  · rw [ha]
    ring
  · rw [hy]
    field_simp
    ring
  · rw [hy]
    field_simp
    ring

/-- C7: the global beam stiffness matrix annihilates every rigid-body nodal
displacement (uniform translation of both nodes plus a matching
infinitesimal rotation about a common point). -/
theorem beam_rigid_body_nullspace (coord1 coord2 : ℝ × ℝ) (EA EI tx ty w px py : ℝ)
    (h : coord1 ≠ coord2) :
    (beam_2d_element coord1 coord2 EA EI).1.mulVec
      (rigidDisp coord1 coord2 tx ty w px py) = 0 := by
  have hL : elemLen coord1 coord2 ≠ 0 := ne_of_gt (elemLen_pos h)
  have hcs := dirCos_sq_add_dirSin_sq h
  rw [beam_fst_eq, ← Matrix.mulVec_mulVec, ← Matrix.mulVec_mulVec]
  have hT : (T_gl_to_loc (dirCos coord1 coord2) (dirSin coord1 coord2)).mulVec
      (rigidDisp coord1 coord2 tx ty w px py) =
      ![dirCos coord1 coord2 * (tx - w * (coord1.2 - py)) +
          dirSin coord1 coord2 * (ty + w * (coord1.1 - px)),
        -dirSin coord1 coord2 * (tx - w * (coord1.2 - py)) +
          dirCos coord1 coord2 * (ty + w * (coord1.1 - px)), w,
        dirCos coord1 coord2 * (tx - w * (coord2.2 - py)) +
          dirSin coord1 coord2 * (ty + w * (coord2.1 - px)),
        -dirSin coord1 coord2 * (tx - w * (coord2.2 - py)) +
          dirCos coord1 coord2 * (ty + w * (coord2.1 - px)), w] := by
    funext i
    fin_cases i <;>
      simp [T_gl_to_loc, rigidDisp, Matrix.cons_mulVec, Matrix.cons_dotProduct,
        Matrix.dotProduct_empty, cons_val_five] <;> ring
  rw [hT, K_local_mulVec_rigid EA EI (elemLen coord1 coord2)
    (dirCos coord1 coord2) (dirSin coord1 coord2) _ _ _ _ w hL hcs
    (by linear_combination (-w) * dirSin_mul_len h)
    (by linear_combination w * dirCos_mul_len h)]
  simp

/-- Witness for C7 at a concrete element and rigid-body motion. -/
theorem beam_rigid_body_nullspace_witness :
    (beam_2d_element (0, 0) (1, 0) 1 1).1.mulVec (rigidDisp (0, 0) (1, 0) 1 2 3 4 5) = 0 :=
  beam_rigid_body_nullspace (0, 0) (1, 0) 1 1 1 2 3 4 5 (by norm_num [Prod.ext_iff])

/-- The quadratic form of the truss stiffness matrix is the scaled square of
the axial strain measure. -/
lemma truss_quadform (coord1 coord2 : ℝ × ℝ) (EA : ℝ) (x : Fin 4 → ℝ) :
    x ⬝ᵥ (truss_2d_element coord1 coord2 EA).1.mulVec x =
      EA / elemLen coord1 coord2 *
        (dirCos coord1 coord2 * x 0 + dirSin coord1 coord2 * x 1 -
          dirCos coord1 coord2 * x 2 - dirSin coord1 coord2 * x 3) ^ 2 := by
  have h0 : vecHead x = x 0 := rfl
  have h1 : vecHead (vecTail x) = x 1 := rfl
  have h2 : vecHead (vecTail (vecTail x)) = x 2 := rfl
  have h3 : vecHead (vecTail (vecTail (vecTail x))) = x 3 := rfl
  simp [truss_2d_element, Matrix.smul_mulVec_assoc, Matrix.cons_mulVec,
    Matrix.cons_dotProduct, Matrix.dotProduct_empty, Matrix.dotProduct_smul,
    Matrix.smul_cons, smul_eq_mul, Matrix.smul_empty, h0, h1, h2, h3]
  ring

/-- The quadratic form of the local beam stiffness matrix decomposes into a
sum of squares: axial strain, mean bending curvature and differential
rotation. -/
lemma K_local_quadform (EA EI L : ℝ) (hL : L ≠ 0) (y : Fin 6 → ℝ) :
    y ⬝ᵥ (K_local EA EI L).mulVec y =
      EA / L * (y 0 - y 3) ^ 2 +
        12 * EI / L ^ 3 * (y 1 - y 4 + L / 2 * (y 2 + y 5)) ^ 2 +
        EI / L * (y 2 - y 5) ^ 2 := by
  have h0 : vecHead y = y 0 := rfl
  have h1 : vecHead (vecTail y) = y 1 := rfl
  have h2 : vecHead (vecTail (vecTail y)) = y 2 := rfl
  have h3 : vecHead (vecTail (vecTail (vecTail y))) = y 3 := rfl
  have h4 : vecHead (vecTail (vecTail (vecTail (vecTail y)))) = y 4 := rfl
  have h5 : vecHead (vecTail (vecTail (vecTail (vecTail (vecTail y))))) = y 5 := rfl
  simp [K_local, Matrix.cons_mulVec, Matrix.cons_dotProduct, Matrix.dotProduct_empty,
    cons_val_five, h0, h1, h2, h3, h4, h5]
  field_simp
  ring

/-- C10: for distinct endpoints and nonnegative stiffness parameters, both
element stiffness matrices are positive semidefinite. -/
theorem element_matrices_positive_semidefinite (coord1 coord2 : ℝ × ℝ) (EA EI : ℝ)
    (h : coord1 ≠ coord2) (hEA : 0 ≤ EA) (hEI : 0 ≤ EI) :
    (∀ x : Fin 4 → ℝ, 0 ≤ x ⬝ᵥ (truss_2d_element coord1 coord2 EA).1.mulVec x) ∧
    (∀ x : Fin 6 → ℝ, 0 ≤ x ⬝ᵥ (beam_2d_element coord1 coord2 EA EI).1.mulVec x) := by
  have hL := elemLen_pos h
  constructor
  · intro x
    rw [truss_quadform]
    exact mul_nonneg (div_nonneg hEA hL.le) (sq_nonneg _)
  · intro x
    rw [beam_fst_eq, ← Matrix.mulVec_mulVec, ← Matrix.mulVec_mulVec,
      Matrix.dotProduct_mulVec, Matrix.vecMul_transpose,
      K_local_quadform EA EI (elemLen coord1 coord2) (ne_of_gt hL)]
    have c1 : 0 ≤ EA / elemLen coord1 coord2 := div_nonneg hEA hL.le
    have c2 : 0 ≤ 12 * EI / elemLen coord1 coord2 ^ 3 :=
      div_nonneg (by linarith) (pow_nonneg hL.le 3)
    have c3 : 0 ≤ EI / elemLen coord1 coord2 := div_nonneg hEI hL.le
    exact add_nonneg (add_nonneg (mul_nonneg c1 (sq_nonneg _))
      (mul_nonneg c2 (sq_nonneg _))) (mul_nonneg c3 (sq_nonneg _))

/-- Witness for C10 at the concrete unit horizontal element. -/
theorem element_matrices_positive_semidefinite_witness :
    0 ≤ ![1, 0, 0, 0] ⬝ᵥ (truss_2d_element (0, 0) (1, 0) 1).1.mulVec ![1, 0, 0, 0] :=
  (element_matrices_positive_semidefinite (0, 0) (1, 0) 1 1
    (by norm_num [Prod.ext_iff]) (by norm_num) (by norm_num)).1 ![1, 0, 0, 0]

/-- A matrix with rank zero is the zero matrix. -/
lemma rank_ne_zero_of_ne_zero {m n : ℕ} {A : Matrix (Fin m) (Fin n) ℝ} (hA : A ≠ 0) :
    A.rank ≠ 0 := by
  intro h0
  apply hA
  rw [Matrix.rank] at h0
  have hrange : LinearMap.range A.mulVecLin = ⊥ := Submodule.finrank_eq_zero.mp h0
  ext i j
  have hv : A.mulVec (Pi.single j 1) = 0 := by
    have hmem : A.mulVecLin (Pi.single j 1) ∈ LinearMap.range A.mulVecLin :=
      LinearMap.mem_range_self _ _
    rw [hrange, Submodule.mem_bot] at hmem
    simpa [Matrix.mulVecLin_apply] using hmem
  rw [Matrix.mulVec_single] at hv
  have hAij := congrFun hv i
  simpa using hAij

/-- The outer product of a nonzero vector with itself has rank one. -/
lemma rank_vecMulVec_self {n : ℕ} (d : Fin n → ℝ) (hd : d ≠ 0) :
    (Matrix.vecMulVec d d).rank = 1 := by
  have h1 : Matrix.vecMulVec d d = Matrix.col (Fin 1) d * Matrix.row (Fin 1) d :=
    Matrix.vecMulVec_eq (Fin 1) d d
  rw [h1, ← Matrix.transpose_col, Matrix.rank_self_mul_transpose]
  have hcolne : Matrix.col (Fin 1) d ≠ 0 := by
    intro hc
    apply hd
    funext i
    have := congrFun (congrFun hc i) 0
    simpa [Matrix.col_apply] using this
  refine le_antisymm ?_ ?_
  · simpa using Matrix.rank_le_card_width (Matrix.col (Fin 1) d)
  · exact Nat.one_le_iff_ne_zero.mpr (rank_ne_zero_of_ne_zero hcolne)

/-- Multiplying a square matrix by a nonzero scalar preserves its rank. -/
lemma rank_smul_matrix {n : ℕ} (a : ℝ) (ha : a ≠ 0) (M : Matrix (Fin n) (Fin n) ℝ) :
    (a • M).rank = M.rank := by
  have h1 : a • M = Matrix.diagonal (fun _ => a) * M := by
    ext i j
    simp [Matrix.diagonal_mul]
  have hdet : (Matrix.diagonal (fun _ : Fin n => a)).det = a ^ n := by
    simp [Matrix.det_diagonal]
  rw [h1]
  exact Matrix.rank_mul_eq_right_of_isUnit_det _ _
    (by rw [hdet]; exact isUnit_iff_ne_zero.mpr (pow_ne_zero n ha))

/-- The direction-cosine vector of an element with distinct endpoints is
nonzero. -/
lemma trussDir_ne_zero {coord1 coord2 : ℝ × ℝ} (h : coord1 ≠ coord2) :
    trussDir coord1 coord2 ≠ 0 := by
  intro h0
  have hc := congrFun h0 0
  have hs := congrFun h0 1
  simp [trussDir] at hc hs
  have hone := dirCos_sq_add_dirSin_sq h
  rw [hc, hs] at hone
  norm_num at hone

/-- C6: the truss stiffness matrix has rank one for valid inputs (distinct
endpoints and nonzero axial stiffness), and is singular (zero determinant,
indeed the zero matrix) whenever `EA` or the length is zero. -/
theorem truss_rank_one_and_degenerate (coord1 coord2 : ℝ × ℝ) (EA : ℝ) :
    (coord1 ≠ coord2 → EA ≠ 0 → (truss_2d_element coord1 coord2 EA).1.rank = 1) ∧
    (EA = 0 ∨ coord1 = coord2 → (truss_2d_element coord1 coord2 EA).1.det = 0) := by
  constructor
  · intro h hEA
    rw [truss_fst_eq_outer,
      rank_smul_matrix _ (div_ne_zero hEA (ne_of_gt (elemLen_pos h))) _]
    exact rank_vecMulVec_self _ (trussDir_ne_zero h)
  · intro hdeg
    have hK : (truss_2d_element coord1 coord2 EA).1 = 0 := by
      rw [truss_fst_eq_outer]
      rcases hdeg with h1 | h1
      · rw [h1]
        simp
      · have hL : elemLen coord1 coord2 = 0 := by
          rw [h1]
          simp [elemLen]
        rw [hL]
        simp [div_zero]
    rw [hK]
    exact Matrix.det_zero ⟨0⟩

/-- Witness for C6 at the concrete unit horizontal element. -/
theorem truss_rank_one_and_degenerate_witness :
    (truss_2d_element (0, 0) (1, 0) 1).1.rank = 1 :=
  (truss_rank_one_and_degenerate (0, 0) (1, 0) 1).1 (by norm_num [Prod.ext_iff]) one_ne_zero

/-- Rotation of a point about the origin by a fixed angle. -/
def rotPoint (phi : ℝ) (p : ℝ × ℝ) : ℝ × ℝ :=
  (Real.cos phi * p.1 - Real.sin phi * p.2, Real.sin phi * p.1 + Real.cos phi * p.2)

/-- Rotating both endpoints preserves the element length. -/
lemma elemLen_rot (phi : ℝ) (coord1 coord2 : ℝ × ℝ) :
    elemLen (rotPoint phi coord1) (rotPoint phi coord2) = elemLen coord1 coord2 := by
  unfold elemLen rotPoint
  dsimp only
  congr 1
  linear_combination
    ((coord2.1 - coord1.1) ^ 2 + (coord2.2 - coord1.2) ^ 2) * Real.sin_sq_add_cos_sq phi

/-- Rotating both endpoints rotates the direction cosine. -/
lemma dirCos_rot (phi : ℝ) (coord1 coord2 : ℝ × ℝ) :
    dirCos (rotPoint phi coord1) (rotPoint phi coord2) =
      Real.cos phi * dirCos coord1 coord2 - Real.sin phi * dirSin coord1 coord2 := by
  unfold dirCos dirSin
  rw [elemLen_rot]
  unfold rotPoint
  dsimp only
  ring

/-- Rotating both endpoints rotates the direction sine. -/
lemma dirSin_rot (phi : ℝ) (coord1 coord2 : ℝ × ℝ) :
    dirSin (rotPoint phi coord1) (rotPoint phi coord2) =
      Real.sin phi * dirCos coord1 coord2 + Real.cos phi * dirSin coord1 coord2 := by
  unfold dirCos dirSin
  rw [elemLen_rot]
  unfold rotPoint
  dsimp only
  ring

/-- The 4x4 block rotation acting on the two nodal translation pairs. -/
def rotBlock4 (phi : ℝ) : Matrix (Fin 4) (Fin 4) ℝ :=
  !![Real.cos phi, -Real.sin phi, 0, 0;
     Real.sin phi, Real.cos phi, 0, 0;
     0, 0, Real.cos phi, -Real.sin phi;
     0, 0, Real.sin phi, Real.cos phi]

/-- The block rotation is orthogonal. -/
lemma rotBlock4_orth (phi : ℝ) : (rotBlock4 phi)ᵀ * rotBlock4 phi = 1 := by
  have hsc := Real.sin_sq_add_cos_sq phi
  have hT : (rotBlock4 phi)ᵀ =
      !![Real.cos phi, Real.sin phi, 0, 0;
         -Real.sin phi, Real.cos phi, 0, 0;
         0, 0, Real.cos phi, Real.sin phi;
         0, 0, -Real.sin phi, Real.cos phi] := by
    ext i j
    fin_cases i <;> fin_cases j <;> rfl
  rw [hT]
  ext i j
  fin_cases i <;> fin_cases j <;>
    simp [rotBlock4, Matrix.mul_apply, Fin.sum_univ_four, Matrix.one_apply] <;>
    first | ring1 | linear_combination hsc | exact Or.inr rfl

/-- Rotating both endpoints rotates the direction-cosine vector by the block
rotation. -/
lemma trussDir_rot (phi : ℝ) (coord1 coord2 : ℝ × ℝ) :
    trussDir (rotPoint phi coord1) (rotPoint phi coord2) =
      (rotBlock4 phi).mulVec (trussDir coord1 coord2) := by
  funext i
  fin_cases i <;>
    simp [trussDir, rotBlock4, Matrix.cons_mulVec, Matrix.cons_dotProduct,
      Matrix.dotProduct_empty, dirCos_rot, dirSin_rot] <;> ring

/-- Conjugation formula for outer products: the outer product of images is
the conjugated outer product. -/
lemma vecMulVec_conj {n : ℕ} (Q : Matrix (Fin n) (Fin n) ℝ) (d : Fin n → ℝ) :
    Matrix.vecMulVec (Q.mulVec d) (Q.mulVec d) = Q * Matrix.vecMulVec d d * Qᵀ := by
  calc Matrix.vecMulVec (Q.mulVec d) (Q.mulVec d)
      = Matrix.col (Fin 1) (Q.mulVec d) * Matrix.row (Fin 1) (Q.mulVec d) :=
        Matrix.vecMulVec_eq (Fin 1) _ _
    _ = (Q * Matrix.col (Fin 1) d) * (Q * Matrix.col (Fin 1) d)ᵀ := by
        rw [Matrix.col_mulVec, Matrix.row_mulVec]
    _ = Q * (Matrix.col (Fin 1) d * (Matrix.col (Fin 1) d)ᵀ) * Qᵀ := by
        rw [Matrix.transpose_mul, Matrix.mul_assoc,
          ← Matrix.mul_assoc (Matrix.col (Fin 1) d), ← Matrix.mul_assoc]
    _ = Q * Matrix.vecMulVec d d * Qᵀ := by
        rw [Matrix.transpose_col, ← Matrix.vecMulVec_eq (Fin 1)]

/-- Conjugating by an orthogonal matrix preserves the characteristic
polynomial, hence the eigenvalue multiset. -/
lemma charpoly_conj_orth {n : ℕ} (Q M : Matrix (Fin n) (Fin n) ℝ) (hQ : Qᵀ * Q = 1) :
    (Q * M * Qᵀ).charpoly = M.charpoly := by
  have hQ2 : Q * Qᵀ = 1 := Matrix.mul_eq_one_comm.mp hQ
  have hmap1 : (Q.map Polynomial.C) * (Qᵀ.map Polynomial.C) = 1 := by
    rw [← Matrix.map_mul, hQ2]
    exact Matrix.map_one _ (map_zero _) (map_one _)
  have hs : (Q.map Polynomial.C) * Matrix.scalar (Fin n) Polynomial.X *
      (Qᵀ.map Polynomial.C) = Matrix.scalar (Fin n) Polynomial.X := by
    rw [← (Matrix.scalar_commute Polynomial.X (fun r => Commute.all _ _)
      (Q.map Polynomial.C)).eq]
    rw [Matrix.mul_assoc, hmap1, Matrix.mul_one]
  have hcm : Matrix.charmatrix (Q * M * Qᵀ) =
      (Q.map Polynomial.C) * Matrix.charmatrix M * (Qᵀ.map Polynomial.C) := by
    simp only [Matrix.charmatrix, RingHom.mapMatrix_apply]
    rw [Matrix.mul_sub, Matrix.sub_mul, hs, Matrix.map_mul, Matrix.map_mul]
  unfold Matrix.charpoly
  rw [hcm, Matrix.det_mul, Matrix.det_mul, mul_right_comm, ← Matrix.det_mul, hmap1,
    Matrix.det_one, one_mul]

/-- C8: rotating both endpoints of a truss element by a fixed angle about
the origin leaves the characteristic polynomial, and hence the multiset of
eigenvalues, of the stiffness matrix unchanged. -/
theorem truss_rotation_eigenvalues_invariant (coord1 coord2 : ℝ × ℝ) (EA phi : ℝ)
    (h : coord1 ≠ coord2) :
    ((truss_2d_element (rotPoint phi coord1) (rotPoint phi coord2) EA).1).charpoly =
      ((truss_2d_element coord1 coord2 EA).1).charpoly := by
  rw [truss_fst_eq_outer, truss_fst_eq_outer, elemLen_rot, trussDir_rot]
  have hsmul : (EA / elemLen coord1 coord2) •
      Matrix.vecMulVec ((rotBlock4 phi).mulVec (trussDir coord1 coord2))
        ((rotBlock4 phi).mulVec (trussDir coord1 coord2)) =
      rotBlock4 phi *
        ((EA / elemLen coord1 coord2) •
          Matrix.vecMulVec (trussDir coord1 coord2) (trussDir coord1 coord2)) *
        (rotBlock4 phi)ᵀ := by
    rw [vecMulVec_conj, mul_smul_comm, smul_mul_assoc]
  rw [hsmul]
  exact charpoly_conj_orth _ _ (rotBlock4_orth phi)

/-- Witness for C8 at a concrete element and rotation angle. -/
theorem truss_rotation_eigenvalues_invariant_witness :
    ((truss_2d_element (rotPoint 1 (0, 0)) (rotPoint 1 (1, 0)) 1).1).charpoly =
      ((truss_2d_element (0, 0) (1, 0) 1).1).charpoly :=
  truss_rotation_eigenvalues_invariant (0, 0) (1, 0) 1 1 (by norm_num [Prod.ext_iff])

/-- The canonical Euler-Bernoulli 4x4 bending block of the spec, for length
`L` and bending stiffness `EI`. -/
def bendingBlock (EI L : ℝ) : Matrix (Fin 4) (Fin 4) ℝ :=
  !![12 * EI / L ^ 3, 6 * EI / L ^ 2, -(12 * EI / L ^ 3), 6 * EI / L ^ 2;
     6 * EI / L ^ 2, 4 * EI / L, -(6 * EI / L ^ 2), 2 * EI / L;
     -(12 * EI / L ^ 3), -(6 * EI / L ^ 2), 12 * EI / L ^ 3, -(6 * EI / L ^ 2);
     6 * EI / L ^ 2, 2 * EI / L, -(6 * EI / L ^ 2), 4 * EI / L]

/-- The axial 2x2 block `EA/L * [[1,-1],[-1,1]]` of the spec. -/
def axialBlock (EA L : ℝ) : Matrix (Fin 2) (Fin 2) ℝ :=
  !![EA / L, -(EA / L); -(EA / L), EA / L]

/-- Embedding of a small square matrix into a 6x6 matrix along an index map:
entry `(f a, f b)` receives `B a b` and all other entries are zero. -/
def embedIdx {m : ℕ} (f : Fin m → Fin 6) (B : Matrix (Fin m) (Fin m) ℝ) :
    Matrix (Fin 6) (Fin 6) ℝ :=
  Matrix.of fun i j => ∑ a : Fin m, ∑ b : Fin m, if i = f a ∧ j = f b then B a b else 0

/-- The spec description of the local beam stiffness matrix: the bending
block embedded into rows/cols 1, 2, 4, 5 plus the axial block embedded into
rows/cols 0, 3. -/
def K_local_spec (EA EI L : ℝ) : Matrix (Fin 6) (Fin 6) ℝ :=
  embedIdx ![1, 2, 4, 5] (bendingBlock EI L) + embedIdx ![0, 3] (axialBlock EA L)

/-- The spec description of the per-node transformation block. -/
def nodeBlock (c s : ℝ) : Matrix (Fin 3) (Fin 3) ℝ :=
  !![c, s, 0; -s, c, 0; 0, 0, 1]

/-- The spec description of the 6x6 transformation matrix: block diagonal
with two identical per-node blocks. -/
def T_spec (c s : ℝ) : Matrix (Fin 6) (Fin 6) ℝ :=
  Matrix.reindex finSumFinEquiv finSumFinEquiv
    (Matrix.fromBlocks (nodeBlock c s) 0 0 (nodeBlock c s))

set_option maxHeartbeats 2000000 in
/-- The source local stiffness matrix realises the spec block embedding. -/
lemma K_local_eq_spec (EA EI L : ℝ) : K_local EA EI L = K_local_spec EA EI L := by
  ext i j
  fin_cases i <;> fin_cases j <;>
    simp [K_local, K_local_spec, embedIdx, bendingBlock, axialBlock,
      Fin.sum_univ_four, Fin.sum_univ_two, cons_val_five] <;>
    rfl

/-- The source transformation matrix realises the spec block-diagonal form. -/
lemma T_gl_to_loc_eq_spec (c s : ℝ) : T_gl_to_loc c s = T_spec c s := by
  ext i j
  fin_cases i <;> fin_cases j <;> rfl

/-- C2: for distinct endpoints the beam element returns
`K_global = Tᵀ * K_local * T`, where `K_local` is the 6x6 matrix with the
canonical Euler-Bernoulli bending block embedded in rows/cols 1, 2, 4, 5 and
the axial block in rows/cols 0, 3, and `T` is block diagonal with two
identical per-node rotation blocks. -/
theorem beam_matrix_block_structure (coord1 coord2 : ℝ × ℝ) (EA EI : ℝ)
    (h : coord1 ≠ coord2) :
    (beam_2d_element coord1 coord2 EA EI).1 =
      (T_spec (dirCos coord1 coord2) (dirSin coord1 coord2))ᵀ *
        K_local_spec EA EI (elemLen coord1 coord2) *
        T_spec (dirCos coord1 coord2) (dirSin coord1 coord2) := by
  rw [beam_fst_eq, K_local_eq_spec, T_gl_to_loc_eq_spec]

/-- Witness for C2 at the concrete unit horizontal element. -/
theorem beam_matrix_block_structure_witness :
    (beam_2d_element (0, 0) (1, 0) 1 1).1 =
      (T_spec (dirCos (0, 0) (1, 0)) (dirSin (0, 0) (1, 0)))ᵀ *
        K_local_spec 1 1 (elemLen (0, 0) (1, 0)) *
        T_spec (dirCos (0, 0) (1, 0)) (dirSin (0, 0) (1, 0)) :=
  beam_matrix_block_structure (0, 0) (1, 0) 1 1 (by norm_num [Prod.ext_iff])
